import Mathlib

/-!
Verification of the persistence layer of the getty pipeline repository:
the JSON document store with merge-on-put semantics, the corpus-wide
identifier rewrite pass, the pipeline writer/serializer wiring
(`src/pipeline/projects/goupil/__init__.py`, `src/pipeline/projects/aata.py`),
and the rewrite driver script (`src/scripts/rewrite_post_sales_uris.py`).

JSON values are embedded as a nested inductive type; Python dicts become
association lists preserving insertion order.  The merge policy and the
rewrite engine (whose implementation modules `pipeline/io/file.py`,
`pipeline/io/memory.py` and `pipeline/util/rewriting.py` are not part of
the source excerpt) are modelled from the specification, as noted on each
definition.  Everything else is translated directly from the source.
-/

/-- JSON value: null, booleans, numbers, strings, arrays, and objects with
insertion-ordered fields (the shape produced by Python's `json` module). -/
inductive Json where
  | null
  | bool (b : Bool)
  | num (n : Int)
  | str (s : String)
  | arr (xs : List Json)
  | obj (fields : List (String × Json))

mutual

/-- Boolean structural equality on JSON values. -/
def beqV : Json → Json → Bool
  | .null, .null => true
  | .bool a, .bool b => a == b
  | .num a, .num b => a == b
  | .str a, .str b => a == b
  | .arr xs, .arr ys => beqL xs ys
  | .obj fs, .obj gs => beqF fs gs
  | _, _ => false

/-- Boolean structural equality on JSON arrays. -/
def beqL : List Json → List Json → Bool
  | [], [] => true
  | x :: xs, y :: ys => beqV x y && beqL xs ys
  | _, _ => false

/-- Boolean structural equality on JSON object fields. -/
def beqF : List (String × Json) → List (String × Json) → Bool
  | [], [] => true
  | (k, v) :: fs, (l, w) :: gs => k == l && beqV v w && beqF fs gs
  | _, _ => false

end

mutual

theorem beqV_iff : (a b : Json) → (beqV a b = true ↔ a = b)
  | .null, .null => by simp [beqV]
  | .bool _, .bool _ => by simp [beqV]
  | .num _, .num _ => by simp [beqV]
  | .str _, .str _ => by simp [beqV]
  | .arr xs, .arr ys => by simp [beqV, beqL_iff xs ys]
  | .obj fs, .obj gs => by simp [beqV, beqF_iff fs gs]
  | .null, .bool _ | .null, .num _ | .null, .str _ | .null, .arr _ | .null, .obj _ => by simp [beqV]
  | .bool _, .null | .bool _, .num _ | .bool _, .str _ | .bool _, .arr _ | .bool _, .obj _ => by simp [beqV]
  | .num _, .null | .num _, .bool _ | .num _, .str _ | .num _, .arr _ | .num _, .obj _ => by simp [beqV]
  | .str _, .null | .str _, .bool _ | .str _, .num _ | .str _, .arr _ | .str _, .obj _ => by simp [beqV]
  | .arr _, .null | .arr _, .bool _ | .arr _, .num _ | .arr _, .str _ | .arr _, .obj _ => by simp [beqV]
  | .obj _, .null | .obj _, .bool _ | .obj _, .num _ | .obj _, .str _ | .obj _, .arr _ => by simp [beqV]

theorem beqL_iff : (xs ys : List Json) → (beqL xs ys = true ↔ xs = ys)
  | [], [] => by simp [beqL]
  | x :: xs, y :: ys => by simp [beqL, beqV_iff x y, beqL_iff xs ys]
  | [], _ :: _ => by simp [beqL]
  | _ :: _, [] => by simp [beqL]

theorem beqF_iff : (fs gs : List (String × Json)) → (beqF fs gs = true ↔ fs = gs)
  | [], [] => by simp [beqF]
  | (k, v) :: fs, (l, w) :: gs => by
      simp [beqF, beqV_iff v w, beqF_iff fs gs, and_assoc]
  | [], _ :: _ => by simp [beqF]
  | _ :: _, [] => by simp [beqF]

end

instance : DecidableEq Json := fun a b => decidable_of_iff _ (beqV_iff a b)

/-- Lookup of a key in an object's field list (first occurrence, the value a
Python dict holds for that key). -/
def lookupF (k : String) : List (String × Json) → Option Json
  | [] => none
  | (l, v) :: fs => if l = k then some v else lookupF k fs

/-- Identity of an element of a reference list: its `id` field when the
element is an object carrying one, otherwise the whole value (full
structural equality).  Modelled from the spec: "deduplicate by identity
(an id field, else full structural equality)". -/
def identKey (j : Json) : Json ⊕ Json :=
  match j with
  | .obj fs =>
      match lookupF "id" fs with
      | some v => .inl v
      | none => .inr j
  | _ => .inr j

/-- Boolean membership test for identities. -/
def memKey (i : Json ⊕ Json) : List (Json ⊕ Json) → Bool
  | [] => false
  | j :: js => if i = j then true else memKey i js

/-- Deduplication by identity keeping the first occurrence of each identity;
`seen` accumulates identities already emitted. -/
def dedupAux (seen : List (Json ⊕ Json)) : List Json → List Json
  | [] => []
  | x :: xs =>
      if memKey (identKey x) seen then dedupAux seen xs
      else x :: dedupAux (identKey x :: seen) xs

/-- Modelled from the spec: reference-list merge deduplicates the
concatenation by identity, keeping the first occurrence of each identity. -/
def dedupById (xs : List Json) : List Json := dedupAux [] xs

mutual

/-- Modelled from the spec: the MergePolicy of `pipeline/io/file.py` /
`pipeline/io/memory.py` (missing from the source excerpt).  Combines the
stored (`old`) and incoming (`new`) values found under object key `key`:
object vs object merges key-wise; array vs array concatenates, and for
keys designated reference lists (`rk key = true`) deduplicates the
concatenation by identity; otherwise the newer value wins (equal scalars
are kept unchanged, which coincides with taking the newer one). -/
def mergeV (rk : String → Bool) (key : String) : Json → Json → Json
  | .obj fs, .obj gs =>
      .obj (mergedLeft rk gs fs ++ gs.filter (fun p => (lookupF p.1 fs).isNone))
  | .arr xs, .arr ys =>
      if rk key then .arr (dedupById (xs ++ ys)) else .arr (xs ++ ys)
  | _, new => new

/-- Fields of the stored object, each merged with the incoming object's
value for the same key when present (Python dict-update order: stored keys
first, in their original order). -/
def mergedLeft (rk : String → Bool) (gs : List (String × Json)) :
    List (String × Json) → List (String × Json)
  | [] => []
  | (k, v) :: fs =>
      (match lookupF k gs with
       | some w => (k, mergeV rk k v w)
       | none => (k, v)) :: mergedLeft rk gs fs

end

/-- Key-wise merge of two objects' field lists: stored keys first (merged
where shared), then incoming-only keys in their own order. -/
def mergeF (rk : String → Bool) (fs gs : List (String × Json)) : List (String × Json) :=
  mergedLeft rk gs fs ++ gs.filter (fun p => (lookupF p.1 fs).isNone)

theorem mergeV_obj (rk : String → Bool) (key : String) (fs gs : List (String × Json)) :
    mergeV rk key (.obj fs) (.obj gs) = .obj (mergeF rk fs gs) := rfl

/-- DocumentStore contents: stored body per `(kind, id)` key. -/
def DocStore : Type := String × String → Option Json

/-- Store holding no documents. -/
def emptyStore : DocStore := fun _ => none

/-- Modelled from the spec: `DocumentStore.Put (kind, id, body)` merges
`body` into whatever is currently stored for `(kind, id)` (first write
stores the body as is).  The merge of whole documents starts at a root key
that is not itself an object key. -/
def put (rk : String → Bool) (s : DocStore) (kind ident : String) (body : Json) : DocStore :=
  fun q =>
    if q = (kind, ident) then
      some (match s (kind, ident) with
            | some old => mergeV rk "" old body
            | none => body)
    else s q

/-- Sequence of Put calls applied in order. -/
def putSeq (rk : String → Bool) : DocStore → List (String × String × Json) → DocStore
  | s, [] => s
  | s, (kind, ident, body) :: rest => putSeq rk (put rk s kind ident body) rest


mutual

/-- Well-formed JSON: every object has pairwise-distinct keys (the shape of
any value produced by Python's `json` module from dicts). -/
def wfV : Json → Bool
  | .arr xs => wfL xs
  | .obj fs => wfF fs
  | _ => true

/-- Well-formedness of every element of an array. -/
def wfL : List Json → Bool
  | [] => true
  | x :: xs => wfV x && wfL xs

/-- Well-formedness of an object's fields: no duplicate keys, values
well-formed. -/
def wfF : List (String × Json) → Bool
  | [] => true
  | (k, v) :: fs => (lookupF k fs).isNone && wfV v && wfF fs

end

mutual

/-- Array-free JSON values: scalars and objects only. -/
def arrFree : Json → Bool
  | .arr _ => false
  | .obj fs => arrFreeF fs
  | _ => true

/-- Array-freedom of an object's field values. -/
def arrFreeF : List (String × Json) → Bool
  | [] => true
  | (_, v) :: fs => arrFree v && arrFreeF fs

end

mutual

/-- Conflict-freedom of two bodies: at every key present on both sides the
values are recursively conflict-free objects or equal values ("share no
conflicting scalar fields"). -/
def cfV : Json → Json → Bool
  | .obj fs, .obj gs => cfF gs fs
  | v, w => beqV v w

/-- Conflict-freedom of the stored fields against the incoming fields
`gs`, checked key-wise on shared keys. -/
def cfF (gs : List (String × Json)) : List (String × Json) → Bool
  | [] => true
  | (k, v) :: fs =>
      (match lookupF k gs with
       | some w => cfV v w
       | none => true) && cfF gs fs

end

/-- Insertion of a field into a key-sorted field list. -/
def insertF (p : String × Json) : List (String × Json) → List (String × Json)
  | [] => [p]
  | q :: qs => if p.1 ≤ q.1 then p :: q :: qs else q :: insertF p qs

mutual

/-- Canonical form of a JSON value: object fields sorted by key at every
level.  Two values denote the same JSON content (stored document) iff their
canonical forms are equal. -/
def canonV : Json → Json
  | .obj fs => .obj (canonF fs)
  | .arr xs => .arr (canonL xs)
  | v => v

/-- Canonical form of every array element. -/
def canonL : List Json → List Json
  | [] => []
  | x :: xs => canonV x :: canonL xs

/-- Canonical (key-sorted) form of an object's fields. -/
def canonF : List (String × Json) → List (String × Json)
  | [] => []
  | (k, v) :: fs => insertF (k, canonV v) (canonF fs)

end

/-- RewriteMap: ordered identifier-substitution rules `(matchPfx, replacement)`
over strings viewed as character lists. -/
abbrev RewriteMap : Type := List (List Char × List Char)

/-- Modelled from the spec: longest-matching-rule search of the
`JSONValueRewriter` of `pipeline/util/rewriting.py` (missing from the source
excerpt).  Returns the rule whose match part is the longest one that is a
prefix of `s`; ties among equal-length matches go to the earliest rule. -/
def bestRule (s : List Char) : RewriteMap → Option (List Char × List Char)
  | [] => none
  | (p, r) :: rules =>
      let best := bestRule s rules
      if p.isPrefixOf s then
        match best with
        | some (q, t) => if p.length < q.length then some (q, t) else some (p, r)
        | none => some (p, r)
      else best

/-- Modelled from the spec: rewrite of one string leaf — replace the longest
matching rule's match part, keep the remainder; strings matching no rule are
unchanged. -/
def rewriteChars (m : RewriteMap) (s : List Char) : List Char :=
  match bestRule s m with
  | some (p, r) => r ++ s.drop p.length
  | none => s

mutual

/-- Modelled from the spec: `JSONValueRewriter` applied to a JSON tree —
recursively visit, rewriting every string leaf. -/
def rewriteV (m : RewriteMap) : Json → Json
  | .str s => .str (String.mk (rewriteChars m s.data))
  | .arr xs => .arr (rewriteL m xs)
  | .obj fs => .obj (rewriteF m fs)
  | v => v

/-- Rewrite of every array element. -/
def rewriteL (m : RewriteMap) : List Json → List Json
  | [] => []
  | x :: xs => rewriteV m x :: rewriteL m xs

/-- Rewrite of every object field value. -/
def rewriteF (m : RewriteMap) : List (String × Json) → List (String × Json)
  | [] => []
  | (k, v) :: fs => (k, rewriteV m v) :: rewriteF m fs

end

/-- Modelled from the spec: `rewrite_output_files` applies the rewriter to
every stored document independently. -/
def rewriteCorpus (m : RewriteMap) (c : List Json) : List Json :=
  c.map (rewriteV m)

mutual

/-- Structure-preserving map of a function over every string leaf of a JSON
tree, leaving everything else (including object keys) unchanged. -/
def mapLeaves (f : List Char → List Char) : Json → Json
  | .str s => .str (String.mk (f s.data))
  | .arr xs => .arr (mapLeavesL f xs)
  | .obj fs => .obj (mapLeavesF f fs)
  | v => v

/-- Leaf map over array elements. -/
def mapLeavesL (f : List Char → List Char) : List Json → List Json
  | [] => []
  | x :: xs => mapLeaves f x :: mapLeavesL f xs

/-- Leaf map over object field values. -/
def mapLeavesF (f : List Char → List Char) : List (String × Json) → List (String × Json)
  | [] => []
  | (k, v) :: fs => (k, mapLeaves f v) :: mapLeavesF f fs

end

/-- Outcome of attempting to open and parse the mapping file named on the
command line. -/
inductive MapFile where
  | missing
  | invalid
  | parsed (m : RewriteMap)

/-- Result of one invocation of the rewrite script: process exit code and
the stored corpus afterwards. -/
structure ScriptOutcome where
  exitCode : Nat
  corpus : List Json
deriving DecidableEq

/-- Control flow of `src/scripts/rewrite_post_sales_uris.py`: if
`len(sys.argv) < 2` print usage and `sys.exit(1)`; otherwise open the
mapping file and `json.load` it, and only then construct the rewriter and
run `rewrite_output_files`.  An uncaught `OSError` (file missing) or
`json.JSONDecodeError` (malformed JSON) terminates the Python process with
exit code 1 before any document is touched; on success the script falls off
the end with exit code 0. -/
def runRewriteScript (argv : List String) (mapFile : MapFile) (corpus : List Json) :
    ScriptOutcome :=
  if argv.length < 2 then ⟨1, corpus⟩
  else
    match mapFile with
    | .missing => ⟨1, corpus⟩
    | .invalid => ⟨1, corpus⟩
    | .parsed m => ⟨0, rewriteCorpus m corpus⟩

/-- Kind of writer object constructed by the goupil pipeline. -/
inductive WriterKind where
  | memoryWriter
  | fileWriter
deriving DecidableEq

/-- Writer object: its class and the `compact` flag it was constructed
with. -/
structure WriterObj where
  kind : WriterKind
  compact : Bool
deriving DecidableEq

/-- Translation of `GoupilFilePipeline.serializer_nodes_for_model`
(src/pipeline/projects/goupil/__init__.py): in debug mode the writer is
constructed with `compact=False`, otherwise with `compact=True`;
`use_memory_writer` selects `MergingMemoryWriter` versus
`MergingFileWriter`. -/
def serializer_nodes_for_model (debug useMemoryWriter : Bool) : WriterObj :=
  if debug then
    if useMemoryWriter then ⟨.memoryWriter, false⟩ else ⟨.fileWriter, false⟩
  else
    if useMemoryWriter then ⟨.memoryWriter, true⟩ else ⟨.fileWriter, true⟩

/-- Accumulation of `self.writers` across the
`serializer_nodes_for_model` calls of one run (`self.writers += nodes` on
each call); `calls` lists the `use_memory_writer` argument of each call in
order. -/
def recordWriters (debug : Bool) : List WriterObj → List Bool → List WriterObj
  | ws, [] => ws
  | ws, umw :: rest => recordWriters debug (ws ++ [serializer_nodes_for_model debug umw]) rest

/-- Flush phase of `GoupilFilePipeline.run`: iterate `self.writers` and call
`flush()` exactly on those writers that are `MergingMemoryWriter` instances.
The result lists the positions of the writers whose `flush` is called, in
call order. -/
def flushSeq (ws : List WriterObj) : List Nat :=
  (List.range ws.length).filter
    (fun i => decide ((ws.getD i ⟨.fileWriter, true⟩).kind = .memoryWriter))

/-- Serializer object of the AATA pipeline with its `compact` flag. -/
structure Serializer where
  compact : Bool
deriving DecidableEq

/-- Translation of `AATAFilePipeline.__init__`
(src/pipeline/projects/aata.py): `Serializer(compact=False)` in debug mode,
`Serializer(compact=True)` otherwise. -/
def aataInitSerializer (debug : Bool) : Serializer :=
  if debug then ⟨false⟩ else ⟨true⟩

/-- Translation of `GoupilUtilityHelper.make_object_uri`
(src/pipeline/projects/goupil/__init__.py): `uri_key = list(uri_key);
uri = self.make_proj_uri(*uri_key); return uri`.  The inherited
`make_proj_uri` lives outside the source excerpt and is abstracted as the
function argument `mpu`. -/
def make_object_uri {A : Type} (mpu : List String → String) (pi_rec_no : A)
    (uri_key : List String) : String :=
  let uk := uri_key
  mpu uk

/-- Constant `UID_TAG_PREFIX` of src/pipeline/projects/aata.py. -/
def UID_TAG_PREFIX : String := "tag:getty.edu,2019:digital:pipeline:aata:REPLACE-WITH-UUID#"

/-- Hexadecimal digit (uppercase, as `urllib.parse.quote` emits). -/
def hexDigit (n : Nat) : Char :=
  if n < 10 then Char.ofNat (48 + n) else Char.ofNat (55 + n)

/-- UTF-8 bytes of a unicode code point. -/
def utf8Bytes (n : Nat) : List Nat :=
  if n < 128 then [n]
  else if n < 2048 then [192 + n / 64, 128 + n % 64]
  else if n < 65536 then [224 + n / 4096, 128 + (n / 64) % 64, 128 + n % 64]
  else [240 + n / 262144, 128 + (n / 4096) % 64, 128 + (n / 64) % 64, 128 + n % 64]

/-- Percent-encoding of one byte. -/
def pctEncodeByte (b : Nat) : List Char :=
  ['%', hexDigit (b / 16), hexDigit (b % 16)]

/-- Characters `urllib.parse.quote` leaves unencoded with its default
`safe='/'`: letters, digits, `_.-~`, and `/`. -/
def quoteSafe (c : Char) : Bool :=
  c.isAlpha || c.isDigit || c = '_' || c = '.' || c = '-' || c = '~' || c = '/'

/-- Percent-encoding of one character (or itself when safe). -/
def pyQuoteChar (c : Char) : List Char :=
  if quoteSafe c then [c] else ((utf8Bytes c.toNat).map pctEncodeByte).flatten

/-- Model of `urllib.parse.quote` with its default `safe='/'`. -/
def pyQuote (s : String) : String :=
  String.mk ((s.data.map pyQuoteChar).flatten)

/-- Python exception raised by evaluating the name `uuid` in a module that
never imports it. -/
inductive PyExc where
  | nameError
deriving DecidableEq

/-- Translation of `aata_uri` (src/pipeline/projects/aata.py, lines 51-58):
a non-empty `values` tuple yields `UID_TAG_PREFIX` plus the comma-joined
percent-encoded values; the empty tuple reaches the else-branch, whose
`uuid.uuid4()` raises `NameError` because the module never imports `uuid`
(lines 8-41 of the file). -/
def aata_uri (values : List String) : Except PyExc String :=
  if values ≠ [] then
    .ok ( UID_TAG_PREFIX ++ String.intercalate "," (values.map pyQuote))
  else
    .error .nameError

theorem recordWriters_eq (debug : Bool) :
    ∀ (calls : List Bool) (ws : List WriterObj),
      recordWriters debug ws calls = ws ++ calls.map (serializer_nodes_for_model debug)
  | [], ws => by simp [recordWriters]
  | umw :: rest, ws => by
      simp [recordWriters, recordWriters_eq debug rest]

theorem count_flushSeq (ws : List WriterObj) (i : Nat) (h : i < ws.length) :
    (flushSeq ws).count i =
      if (ws.getD i ⟨.fileWriter, true⟩).kind = .memoryWriter then 1 else 0 := by
  unfold flushSeq
  by_cases hp : (ws.getD i ⟨.fileWriter, true⟩).kind = .memoryWriter
  · rw [if_pos hp]
    refine List.count_eq_one_of_mem ((List.nodup_range _).filter _) ?_
    refine List.mem_filter.2 ⟨List.mem_range.2 h, by simpa using hp⟩
  · rw [if_neg hp]
    refine List.count_eq_zero.2 (fun hmem => ?_)
    have := (List.mem_filter.1 hmem).2
    simp [List.getD_eq_getElem?_getD] at this hp
    exact hp this

/-- C6: the rewrite invocation exits non-zero and leaves every stored
document untouched when the mapping-file argument is absent, the mapping
file is missing, or it is not valid JSON; the mapping file is fully parsed
before any rewriting, and on success the exit code is 0 and the corpus is
rewritten. -/
theorem c6_mapping_file_preflight (argv : List String) (mapFile : MapFile)
    (corpus : List Json) :
    (argv.length < 2 →
      (runRewriteScript argv mapFile corpus).exitCode ≠ 0
      ∧ (runRewriteScript argv mapFile corpus).corpus = corpus)
    ∧ (mapFile = .missing ∨ mapFile = .invalid →
      (runRewriteScript argv mapFile corpus).exitCode ≠ 0
      ∧ (runRewriteScript argv mapFile corpus).corpus = corpus)
    ∧ (∀ m, mapFile = .parsed m → 2 ≤ argv.length →
      runRewriteScript argv mapFile corpus = ⟨0, rewriteCorpus m corpus⟩) := by
  refine ⟨fun hlt => ?_, fun hbad => ?_, fun m hm hlen => ?_⟩
  · simp [runRewriteScript, hlt]
  · rcases hbad with h | h <;> subst h <;>
      · unfold runRewriteScript
        split <;> simp
  · subst hm
    have : ¬ argv.length < 2 := by omega
    simp [runRewriteScript, this]

theorem c6_mapping_file_preflight_witness :
    ((runRewriteScript ["rewrite_post_sales_uris.py"] (.parsed []) []).exitCode ≠ 0
      ∧ (runRewriteScript ["rewrite_post_sales_uris.py"] (.parsed []) []).corpus = [])
    ∧ ((runRewriteScript ["rewrite_post_sales_uris.py", "map.json"] .invalid
          [.str "x"]).exitCode ≠ 0
      ∧ (runRewriteScript ["rewrite_post_sales_uris.py", "map.json"] .invalid
          [.str "x"]).corpus = [.str "x"])
    ∧ runRewriteScript ["rewrite_post_sales_uris.py", "map.json"] (.parsed []) [.str "x"]
        = ⟨0, rewriteCorpus [] [.str "x"]⟩ :=
  ⟨(c6_mapping_file_preflight ["rewrite_post_sales_uris.py"] (.parsed []) []).1
      (by decide),
   (c6_mapping_file_preflight ["rewrite_post_sales_uris.py", "map.json"] .invalid
      [.str "x"]).2.1 (Or.inr rfl),
   (c6_mapping_file_preflight ["rewrite_post_sales_uris.py", "map.json"] (.parsed [])
      [.str "x"]).2.2 [] rfl (by decide)⟩

/-- C7: after `GoupilFilePipeline.run`, every writer created by
`serializer_nodes_for_model` during the run is recorded in `self.writers`,
the flush phase calls `flush()` exactly once on each recorded
`MergingMemoryWriter`, and never on a `MergingFileWriter`. -/
theorem c7_flush_memory_writers_once (debug : Bool) (calls : List Bool) (i : Nat)
    (h : i < (recordWriters debug [] calls).length) :
    recordWriters debug [] calls = calls.map (serializer_nodes_for_model debug)
    ∧ (flushSeq (recordWriters debug [] calls)).count i =
        (if ((recordWriters debug [] calls).getD i ⟨.fileWriter, true⟩).kind
            = .memoryWriter
         then 1 else 0) :=
  ⟨by simpa using recordWriters_eq debug calls [],
   count_flushSeq _ i h⟩

theorem c7_flush_memory_writers_once_witness :
    recordWriters true [] [true, false, true]
        = [true, false, true].map (serializer_nodes_for_model true)
    ∧ (flushSeq (recordWriters true [] [true, false, true])).count 1 =
        (if ((recordWriters true [] [true, false, true]).getD 1 ⟨.fileWriter, true⟩).kind
            = .memoryWriter
         then 1 else 0) :=
  c7_flush_memory_writers_once true [true, false, true] 1 (by decide)

/-- C8: the serialization mode is fixed at construction from the debug
flag: the goupil `serializer_nodes_for_model` builds its writer with
`compact=False` exactly when `debug` is true (and picks the memory writer
exactly when `use_memory_writer` is true), and `AATAFilePipeline.__init__`
builds `Serializer(compact=False)` exactly when `debug` is true. -/
theorem c8_compact_iff_not_debug (debug useMemoryWriter : Bool) :
    ((serializer_nodes_for_model debug useMemoryWriter).compact = false ↔ debug = true)
    ∧ ((serializer_nodes_for_model debug useMemoryWriter).kind = .memoryWriter
        ↔ useMemoryWriter = true)
    ∧ ((aataInitSerializer debug).compact = false ↔ debug = true) := by
  cases debug <;> cases useMemoryWriter <;>
    simp [serializer_nodes_for_model, aataInitSerializer]

/-- C9: `GoupilUtilityHelper.make_object_uri` ignores its `pi_rec_no`
argument entirely: any two values (even of different types) yield the same
URI, which equals `make_proj_uri(*uri_key)`. -/
theorem c9_make_object_uri_ignores_pi_rec_no {A B : Type}
    (mpu : List String → String) (a : A) (b : B) (uri_key : List String) :
    make_object_uri mpu a uri_key = make_object_uri mpu b uri_key
    ∧ make_object_uri mpu a uri_key = mpu uri_key :=
  ⟨rfl, rfl⟩

/-- C10: `aata_uri` on a non-empty argument list deterministically returns
`UID_TAG_PREFIX` followed by the comma-joined percent-encoded arguments,
and on the empty argument list raises `NameError` (its else-branch
evaluates `uuid.uuid4()` but the module never imports `uuid`). -/
theorem c10_aata_uri_shape (values : List String) (h : values ≠ []) :
    aata_uri values
      = .ok ( UID_TAG_PREFIX ++ String.intercalate "," (values.map pyQuote))
    ∧ aata_uri [] = .error .nameError := by
  constructor
  · simp [aata_uri, h]
  · rfl

theorem c10_aata_uri_shape_witness :
    aata_uri ["Article", "x y"]
      = .ok ( UID_TAG_PREFIX ++ String.intercalate "," (["Article", "x y"].map pyQuote))
    ∧ aata_uri [] = .error .nameError :=
  c10_aata_uri_shape ["Article", "x y"] (by decide)

theorem lookupF_append (k : String) (as bs : List (String × Json)) :
    lookupF k (as ++ bs) =
      match lookupF k as with
      | some v => some v
      | none => lookupF k bs := by
  induction as with
  | nil => simp [lookupF]
  | cons p as ih =>
      obtain ⟨l, v⟩ := p
      by_cases h : l = k <;> simp [lookupF, h, ih]

theorem lookupF_mergedLeft (rk : String → Bool) (gs : List (String × Json)) :
    ∀ (fs : List (String × Json)) (k : String),
      lookupF k (mergedLeft rk gs fs) =
        (lookupF k fs).map (fun v =>
          match lookupF k gs with
          | some w => mergeV rk k v w
          | none => v)
  | [], k => by simp [mergedLeft, lookupF]
  | (k0, v0) :: fs, k => by
      by_cases h : k0 = k
      · subst h
        cases hg : lookupF k0 gs <;> simp [mergedLeft, lookupF, hg]
      · cases hg : lookupF k0 gs <;>
          simp [mergedLeft, lookupF, h, hg, lookupF_mergedLeft rk gs fs k]

theorem lookupF_filter_keys (fs gs : List (String × Json)) (k : String) :
    lookupF k (gs.filter (fun p => (lookupF p.1 fs).isNone)) =
      if (lookupF k fs).isNone then lookupF k gs else none := by
  induction gs with
  | nil => simp [lookupF]
  | cons p gs ih =>
      obtain ⟨l, w⟩ := p
      by_cases hl : l = k
      · subst hl
        cases hf : lookupF l fs <;> simp [List.filter, lookupF, hf, ih]
      · cases hf : lookupF l fs <;>
          cases hfk : lookupF k fs <;>
            simp [List.filter, lookupF, hl, hf, hfk, ih]

theorem lookupF_mergeF (rk : String → Bool) (fs gs : List (String × Json)) (k : String) :
    lookupF k (mergeF rk fs gs) =
      match lookupF k fs, lookupF k gs with
      | some v, some w => some (mergeV rk k v w)
      | some v, none => some v
      | none, o => o := by
  unfold mergeF
  rw [lookupF_append, lookupF_mergedLeft]
  cases hf : lookupF k fs <;> cases hg : lookupF k gs <;>
    simp [lookupF_filter_keys, hf, hg]

/-- C3: starting from an empty store, `Put("Person","abc-1",{"name":"Smith"})`
then `Put("Person","abc-1",{"role":"author"})` stores
`{"name":"Smith","role":"author"}` under `("Person","abc-1")`; and in any
object-vs-object merge, a key present on only one side passes through
unchanged. -/
theorem c3_obj_merge_scenario :
    (∀ rk : String → Bool,
      putSeq rk emptyStore
        [("Person", "abc-1", .obj [("name", .str "Smith")]),
         ("Person", "abc-1", .obj [("role", .str "author")])] ("Person", "abc-1")
      = some (.obj [("name", .str "Smith"), ("role", .str "author")]))
    ∧ ∀ (rk : String → Bool) (fs gs : List (String × Json)) (k : String),
        (lookupF k gs = none → lookupF k (mergeF rk fs gs) = lookupF k fs)
        ∧ (lookupF k fs = none → lookupF k (mergeF rk fs gs) = lookupF k gs) := by
  constructor
  · intro rk; rfl
  · intro rk fs gs k
    constructor
    · intro hg
      rw [lookupF_mergeF, hg]
      cases lookupF k fs <;> rfl
    · intro hf
      rw [lookupF_mergeF, hf]

theorem c3_obj_merge_scenario_witness :
    putSeq (fun _ => false) emptyStore
      [("Person", "abc-1", .obj [("name", .str "Smith")]),
       ("Person", "abc-1", .obj [("role", .str "author")])] ("Person", "abc-1")
      = some (.obj [("name", .str "Smith"), ("role", .str "author")])
    ∧ lookupF "name"
        (mergeF (fun _ => false) [("name", .str "Smith")] [("role", .str "author")])
      = lookupF "name" [("name", .str "Smith")] :=
  ⟨c3_obj_merge_scenario.1 (fun _ => false),
   (c3_obj_merge_scenario.2 (fun _ => false) [("name", .str "Smith")]
      [("role", .str "author")] "name").1 rfl⟩

/-- Number of entries of a list whose identity is `i`. -/
def identCount (i : Json ⊕ Json) (l : List Json) : Nat :=
  l.countP (fun x => decide (identKey x = i))

theorem memKey_iff (i : Json ⊕ Json) :
    ∀ seen : List (Json ⊕ Json), memKey i seen = true ↔ i ∈ seen
  | [] => by simp [memKey]
  | j :: js => by
      by_cases h : i = j <;> simp [memKey, h, memKey_iff i js]

theorem identCount_dedupAux_of_seen (i : Json ⊕ Json) :
    ∀ (l : List Json) (seen : List (Json ⊕ Json)), memKey i seen = true →
      identCount i (dedupAux seen l) = 0
  | [], seen, _ => by simp [dedupAux, identCount]
  | x :: l, seen, h => by
      by_cases hx : memKey (identKey x) seen = true
      · simp [dedupAux, hx, identCount_dedupAux_of_seen i l seen h]
      · have hne : ¬ identKey x = i := fun he => hx (he ▸ h)
        have hseen : memKey i (identKey x :: seen) = true := by
          simp [memKey_iff] at h ⊢
          exact Or.inr h
        simp [dedupAux, hx, identCount, List.countP_cons, hne]
        have := identCount_dedupAux_of_seen i l (identKey x :: seen) hseen
        simpa [identCount] using this

theorem identCount_dedupAux_le_one (i : Json ⊕ Json) :
    ∀ (l : List Json) (seen : List (Json ⊕ Json)),
      identCount i (dedupAux seen l) ≤ 1
  | [], seen => by simp [dedupAux, identCount]
  | x :: l, seen => by
      by_cases hx : memKey (identKey x) seen = true
      · simpa [dedupAux, hx] using identCount_dedupAux_le_one i l seen
      · have hd : dedupAux seen (x :: l) = x :: dedupAux (identKey x :: seen) l := by
          simp [dedupAux, hx]
        rw [hd]
        unfold identCount at *
        rw [List.countP_cons]
        by_cases hi : identKey x = i
        · subst hi
          have h0 := identCount_dedupAux_of_seen (identKey x) l (identKey x :: seen)
            (by simp [memKey])
          unfold identCount at h0
          simp [h0]
        · have hle := identCount_dedupAux_le_one i l (identKey x :: seen)
          unfold identCount at hle
          simp [hi]
          exact hle

theorem identCount_dedupAux_pos (x : Json) :
    ∀ (l : List Json) (seen : List (Json ⊕ Json)), x ∈ l →
      memKey (identKey x) seen = false →
      0 < identCount (identKey x) (dedupAux seen l)
  | [], _, hmem, _ => absurd hmem (List.not_mem_nil x)
  | y :: l, seen, hmem, hseen => by
      by_cases hy : memKey (identKey y) seen = true
      · have hxl : x ∈ l := by
          rcases List.mem_cons.1 hmem with h | h
          · subst h; rw [hseen] at hy; exact absurd hy (by simp)
          · exact h
        simpa [dedupAux, hy] using identCount_dedupAux_pos x l seen hxl hseen
      · have hd : dedupAux seen (y :: l) = y :: dedupAux (identKey y :: seen) l := by
          simp [dedupAux, hy]
        rw [hd]
        unfold identCount
        rw [List.countP_cons]
        by_cases hxy : identKey x = identKey y
        · simp [hxy]
        · have hxl : x ∈ l := by
            rcases List.mem_cons.1 hmem with h | h
            · subst h; exact absurd rfl hxy
            · exact h
          have hseen2 : memKey (identKey x) (identKey y :: seen) = false := by
            simp [memKey, hxy, hseen]
          have hp := identCount_dedupAux_pos x l (identKey y :: seen) hxl hseen2
          unfold identCount at hp
          omega

theorem identCount_dedupById (x : Json) (l : List Json) (h : x ∈ l) :
    identCount (identKey x) (dedupById l) = 1 :=
  Nat.le_antisymm (identCount_dedupAux_le_one _ l [])
    (identCount_dedupAux_pos x l [] h (by simp [memKey]))

/-- C2: merging two bodies under a key designated as a reference list merges
the two arrays by concatenation deduplicated by identity (the id field when
present, otherwise full structural equality); in particular a sub-record
asserted on both sides occurs exactly once, by identity, after the merge. -/
theorem c2_reference_list_convergence (rk : String → Bool) (key : String)
    (xs ys : List Json) (r : Json) (hrk : rk key = true)
    (hx : r ∈ xs) (hy : r ∈ ys) :
    mergeV rk key (.arr xs) (.arr ys) = .arr (dedupById (xs ++ ys))
    ∧ identCount (identKey r) (dedupById (xs ++ ys)) = 1 :=
  ⟨by simp [mergeV, hrk],
   identCount_dedupById r (xs ++ ys) (List.mem_append.2 (Or.inl hx))⟩

theorem c2_reference_list_convergence_witness :
    mergeV (fun k => k == "refs") "refs"
        (.arr [.obj [("id", .str "x"), ("n", .num 1)]])
        (.arr [.obj [("id", .str "x"), ("n", .num 1)]])
      = .arr (dedupById ([.obj [("id", .str "x"), ("n", .num 1)]]
          ++ [.obj [("id", .str "x"), ("n", .num 1)]]))
    ∧ identCount (identKey (.obj [("id", .str "x"), ("n", .num 1)]))
        (dedupById ([.obj [("id", .str "x"), ("n", .num 1)]]
          ++ [.obj [("id", .str "x"), ("n", .num 1)]])) = 1 :=
  c2_reference_list_convergence (fun k => k == "refs") "refs"
    [.obj [("id", .str "x"), ("n", .num 1)]]
    [.obj [("id", .str "x"), ("n", .num 1)]]
    (.obj [("id", .str "x"), ("n", .num 1)])
    (by decide) (by decide) (by decide)

theorem bestRule_mem (s : List Char) :
    ∀ (m : RewriteMap) (p r : List Char), bestRule s m = some (p, r) →
      (p, r) ∈ m ∧ p <+: s
  | [], p, r, h => by simp [bestRule] at h
  | (q, t) :: m, p, r, h => by
      unfold bestRule at h
      by_cases hq : q.isPrefixOf s = true
      · simp only [hq, if_true] at h
        cases hb : bestRule s m with
        | none =>
            rw [hb] at h
            simp at h
            obtain ⟨h1, h2⟩ := h
            subst h1; subst h2
            exact ⟨by simp, List.isPrefixOf_iff_prefix.1 hq⟩
        | some qt =>
            obtain ⟨q2, t2⟩ := qt
            rw [hb] at h
            by_cases hl : q.length < q2.length
            · simp only [hl, if_true] at h
              simp at h
              obtain ⟨h1, h2⟩ := h
              subst h1; subst h2
              have := bestRule_mem s m _ _ hb
              exact ⟨List.mem_cons_of_mem _ this.1, this.2⟩
            · simp only [hl, if_false] at h
              simp at h
              obtain ⟨h1, h2⟩ := h
              subst h1; subst h2
              exact ⟨by simp, List.isPrefixOf_iff_prefix.1 hq⟩
      · simp only [Bool.not_eq_true] at hq
        rw [hq] at h
        simp at h
        have := bestRule_mem s m p r h
        exact ⟨List.mem_cons_of_mem _ this.1, this.2⟩

theorem bestRule_none (s : List Char) :
    ∀ m : RewriteMap, (∀ p r, (p, r) ∈ m → ¬ p <+: s) → bestRule s m = none
  | [], _ => rfl
  | (q, t) :: m, h => by
      have hq : q.isPrefixOf s = false := by
        rw [← Bool.not_eq_true, List.isPrefixOf_iff_prefix]
        exact h q t (by simp)
      simp [bestRule, hq, bestRule_none s m (fun p r hm => h p r (by simp [hm]))]

theorem bestRule_longest (s : List Char) :
    ∀ (m : RewriteMap) (p r : List Char), (p, r) ∈ m → p <+: s →
      (∀ q t, (q, t) ∈ m → q <+: s → q.length ≤ p.length) →
      (∀ t, (p, t) ∈ m → t = r) →
      bestRule s m = some (p, r)
  | [], p, r, hmem, _, _, _ => absurd hmem (List.not_mem_nil _)
  | (q0, t0) :: m, p, r, hmem, hpre, hlong, huniq => by
      unfold bestRule
      rcases List.mem_cons.1 hmem with hhead | htail
      · injection hhead with h1 h2
        subst h1; subst h2
        have hq : p.isPrefixOf s = true := List.isPrefixOf_iff_prefix.2 hpre
        simp only [hq, if_true]
        cases hb : bestRule s m with
        | none => rfl
        | some qt =>
            obtain ⟨q2, t2⟩ := qt
            have hm := bestRule_mem s m q2 t2 hb
            have hle : q2.length ≤ p.length :=
              hlong q2 t2 (List.mem_cons_of_mem _ hm.1) hm.2
            have hnl : ¬ p.length < q2.length := by omega
            simp only [hnl, if_false]
      · have ih := bestRule_longest s m p r htail hpre
          (fun q t hm hq => hlong q t (List.mem_cons_of_mem _ hm) hq)
          (fun t hm => huniq t (List.mem_cons_of_mem _ hm))
        by_cases hq0 : q0.isPrefixOf s = true
        · simp only [hq0, if_true]
          rw [ih]
          by_cases hl : q0.length < p.length
          · simp only [hl, if_true]
          · have hq0pre : q0 <+: s := List.isPrefixOf_iff_prefix.1 hq0
            have hle := hlong q0 t0 (by simp) hq0pre
            have heq : q0.length = p.length := by omega
            have hq0p : q0 = p :=
              ((List.prefix_of_prefix_length_le hq0pre hpre (by omega)).sublist).eq_of_length heq
            have ht0 : t0 = r := huniq t0 (by simp [← hq0p])
            rw [hq0p, ht0]
            split
            next q2 t2 hsome =>
              injection hsome with e
              injection e with e1 e2
              subst e1; subst e2
              split <;> rfl
            next hnone => cases hnone
        · simp only [Bool.not_eq_true] at hq0
          simp only [hq0, Bool.false_eq_true, if_false]
          exact ih

mutual

theorem rewriteV_eq_mapLeaves (m : RewriteMap) :
    (d : Json) → rewriteV m d = mapLeaves (rewriteChars m) d
  | .null => rfl
  | .bool _ => rfl
  | .num _ => rfl
  | .str _ => rfl
  | .arr xs => by simp [rewriteV, mapLeaves, rewriteL_eq_mapLeaves m xs]
  | .obj fs => by simp [rewriteV, mapLeaves, rewriteF_eq_mapLeaves m fs]

theorem rewriteL_eq_mapLeaves (m : RewriteMap) :
    (xs : List Json) → rewriteL m xs = mapLeavesL (rewriteChars m) xs
  | [] => rfl
  | x :: xs => by
      simp [rewriteL, mapLeavesL, rewriteV_eq_mapLeaves m x, rewriteL_eq_mapLeaves m xs]

theorem rewriteF_eq_mapLeaves (m : RewriteMap) :
    (fs : List (String × Json)) → rewriteF m fs = mapLeavesF (rewriteChars m) fs
  | [] => rfl
  | (k, v) :: fs => by
      simp [rewriteF, mapLeavesF, rewriteV_eq_mapLeaves m v, rewriteF_eq_mapLeaves m fs]

end

/-- C4: a string leaf whose longest matching rule in the RewriteMap is
`(p, r)` is rewritten to `r` followed by the remainder of the string; string
leaves matching no rule are unchanged; and the pass is exactly the
structure-preserving map of this string rewrite over every string leaf of
every document. -/
theorem c4_longest_match_rewrite (m : RewriteMap) (s p r : List Char)
    (hmem : (p, r) ∈ m) (hpre : p <+: s)
    (hlong : ∀ q t, (q, t) ∈ m → q <+: s → q.length ≤ p.length)
    (huniq : ∀ t, (p, t) ∈ m → t = r) :
    rewriteChars m s = r ++ s.drop p.length
    ∧ (∀ s2 : List Char, (∀ q t, (q, t) ∈ m → ¬ q <+: s2) → rewriteChars m s2 = s2)
    ∧ (∀ d : Json, rewriteV m d = mapLeaves (rewriteChars m) d) := by
  refine ⟨?_, fun s2 h2 => ?_, rewriteV_eq_mapLeaves m⟩
  · rw [rewriteChars, bestRule_longest s m p r hmem hpre hlong huniq]
  · rw [rewriteChars, bestRule_none s2 m h2]

theorem c4_longest_match_rewrite_witness :
    rewriteChars [("urn:old:123".data, "urn:new:abc".data)] "urn:old:123/extra".data
      = "urn:new:abc".data ++ "urn:old:123/extra".data.drop "urn:old:123".data.length
    ∧ rewriteChars [("urn:old:123".data, "urn:new:abc".data)] "unrelated".data
      = "unrelated".data
    ∧ rewriteV [("urn:old:123".data, "urn:new:abc".data)] (.str "urn:old:123/extra")
      = mapLeaves (rewriteChars [("urn:old:123".data, "urn:new:abc".data)])
          (.str "urn:old:123/extra") := by
  have h := c4_longest_match_rewrite [("urn:old:123".data, "urn:new:abc".data)]
    "urn:old:123/extra".data "urn:old:123".data "urn:new:abc".data
    (by simp) (by decide)
    (by
      intro q t hqt hq
      simp at hqt
      rw [hqt.1])
    (by
      intro t ht
      simp at ht
      exact ht)
  exact ⟨h.1, h.2.1 "unrelated".data (by
    intro q t hqt hq
    simp at hqt
    rw [hqt.1] at hq
    exact absurd hq (by decide)), h.2.2 (.str "urn:old:123/extra")⟩

/-- Separation of a RewriteMap: no rule's match part is prefix-comparable
with any rule's replacement (in particular no replacement still carries a
rewritable old identifier as a prefix). -/
def sepOK (m : RewriteMap) : Bool :=
  m.all (fun pr => m.all (fun qt => !(qt.1.isPrefixOf pr.2) && !(pr.2.isPrefixOf qt.1)))

theorem sepOK_spec (m : RewriteMap) (h : sepOK m = true) :
    ∀ p r, (p, r) ∈ m → ∀ q t, (q, t) ∈ m → ¬ q <+: r ∧ ¬ r <+: q := by
  intro p r hpr q t hqt
  have h1 := List.all_eq_true.1 h (p, r) hpr
  have h2 := List.all_eq_true.1 h1 (q, t) hqt
  simp only [Bool.and_eq_true, Bool.not_eq_true', ← Bool.not_eq_true] at h2
  rw [List.isPrefixOf_iff_prefix, List.isPrefixOf_iff_prefix] at h2
  exact h2

theorem rewriteChars_idem (m : RewriteMap) (hsep : sepOK m = true) (s : List Char) :
    rewriteChars m (rewriteChars m s) = rewriteChars m s := by
  cases hb : bestRule s m with
  | none =>
      have hs : rewriteChars m s = s := by rw [rewriteChars, hb]
      rw [hs, hs]
  | some pr =>
      obtain ⟨p, r⟩ := pr
      have hpr := bestRule_mem s m p r hb
      have hs : rewriteChars m s = r ++ s.drop p.length := by rw [rewriteChars, hb]
      rw [hs]
      have hnone : bestRule (r ++ s.drop p.length) m = none := by
        refine bestRule_none _ m (fun q t hqt hq => ?_)
        have hsep2 := sepOK_spec m hsep p r hpr.1 q t hqt
        rcases Nat.le_total q.length r.length with hle | hle
        · exact hsep2.1
            (List.prefix_of_prefix_length_le hq (List.prefix_append r _) hle)
        · exact hsep2.2
            (List.prefix_of_prefix_length_le (List.prefix_append r _) hq hle)
      rw [rewriteChars, hnone]

mutual

theorem rewriteV_idem (m : RewriteMap) (hsep : sepOK m = true) :
    (d : Json) → rewriteV m (rewriteV m d) = rewriteV m d
  | .null => rfl
  | .bool _ => rfl
  | .num _ => rfl
  | .str s => by simp [rewriteV, rewriteChars_idem m hsep]
  | .arr xs => by simp [rewriteV, rewriteL_idem m hsep xs]
  | .obj fs => by simp [rewriteV, rewriteF_idem m hsep fs]

theorem rewriteL_idem (m : RewriteMap) (hsep : sepOK m = true) :
    (xs : List Json) → rewriteL m (rewriteL m xs) = rewriteL m xs
  | [] => rfl
  | x :: xs => by
      simp [rewriteL, rewriteV_idem m hsep x, rewriteL_idem m hsep xs]

theorem rewriteF_idem (m : RewriteMap) (hsep : sepOK m = true) :
    (fs : List (String × Json)) → rewriteF m (rewriteF m fs) = rewriteF m fs
  | [] => rfl
  | (k, v) :: fs => by
      simp [rewriteF, rewriteV_idem m hsep v, rewriteF_idem m hsep fs]

end

/-- C5 counterexample: with the rewrite map `{"a": "aa"}` (a replacement
that still carries the old identifier as a prefix), applying the pass twice
to the corpus `["a"]` yields `["aaa"]` while applying it once yields
`["aa"]`: the pass, as claimed for every map, is not idempotent. -/
theorem c5_rewrite_idem_counterexample :
    rewriteCorpus [(['a'], ['a', 'a'])]
        (rewriteCorpus [(['a'], ['a', 'a'])] [.str "a"])
      ≠ rewriteCorpus [(['a'], ['a', 'a'])] [.str "a"] := by decide

/-- C5 (amended): the rewrite pass is idempotent for every corpus whenever
no rule's match part is prefix-comparable with any rule's replacement (as
with genuine old-to-new identifier maps, whose replacements no longer carry
any old prefix): two successive passes with such a map produce a corpus
identical to one pass. -/
theorem c5_rewrite_idem_amended (m : RewriteMap) (hsep : sepOK m = true)
    (c : List Json) :
    rewriteCorpus m (rewriteCorpus m c) = rewriteCorpus m c := by
  unfold rewriteCorpus
  rw [List.map_map]
  exact List.map_congr_left (fun d _ => rewriteV_idem m hsep d)

theorem c5_rewrite_idem_amended_witness :
    rewriteCorpus [("urn:old:123".data, "urn:new:abc".data)]
        (rewriteCorpus [("urn:old:123".data, "urn:new:abc".data)]
          [.str "urn:old:123/extra", .str "unrelated"])
      = rewriteCorpus [("urn:old:123".data, "urn:new:abc".data)]
          [.str "urn:old:123/extra", .str "unrelated"] :=
  c5_rewrite_idem_amended [("urn:old:123".data, "urn:new:abc".data)] (by decide)
    [.str "urn:old:123/extra", .str "unrelated"]

theorem lookupF_isSome_of_mem :
    ∀ (fs : List (String × Json)) (p : String × Json), p ∈ fs → (lookupF p.1 fs).isSome
  | [], p, hp => absurd hp (List.not_mem_nil _)
  | (k, v) :: fs, p, hp => by
      by_cases h : k = p.1
      · simp [lookupF, h]
      · rcases List.mem_cons.1 hp with he | ht
        · subst he; simp at h
        · simp [lookupF, h, lookupF_isSome_of_mem fs p ht]

theorem mem_of_lookupF_some :
    ∀ (fs : List (String × Json)) (k : String) (v : Json),
      lookupF k fs = some v → (k, v) ∈ fs
  | [], k, v, h => by simp [lookupF] at h
  | (k0, v0) :: fs, k, v, h => by
      by_cases he : k0 = k
      · subst he
        simp [lookupF] at h
        simp [h]
      · rw [lookupF, if_neg he] at h
        exact List.mem_cons_of_mem _ (mem_of_lookupF_some fs k v h)

theorem wfF_head : ∀ (k : String) (v : Json) (fs : List (String × Json)),
    wfF ((k, v) :: fs) = true →
    (lookupF k fs = none ∧ wfV v = true ∧ wfF fs = true) := by
  intro k v fs h
  rw [wfF] at h
  simp only [Bool.and_eq_true, Option.isNone_iff_eq_none] at h
  exact ⟨h.1.1, h.1.2, h.2⟩

theorem wfF_mem : ∀ (fs : List (String × Json)), wfF fs = true →
    ∀ p : String × Json, p ∈ fs → wfV p.2 = true
  | [], _, p, hp => absurd hp (List.not_mem_nil _)
  | (k, v) :: fs, h, p, hp => by
      obtain ⟨_, hv, hfs⟩ := wfF_head k v fs h
      rcases List.mem_cons.1 hp with he | ht
      · subst he; exact hv
      · exact wfF_mem fs hfs p ht

theorem arrFreeF_mem : ∀ (fs : List (String × Json)), arrFreeF fs = true →
    ∀ p : String × Json, p ∈ fs → arrFree p.2 = true
  | [], _, p, hp => absurd hp (List.not_mem_nil _)
  | (k, v) :: fs, h, p, hp => by
      rw [arrFreeF] at h
      simp only [Bool.and_eq_true] at h
      rcases List.mem_cons.1 hp with he | ht
      · subst he; exact h.1
      · exact arrFreeF_mem fs h.2 p ht

theorem wfF_lookup_self : ∀ (fs : List (String × Json)), wfF fs = true →
    ∀ p : String × Json, p ∈ fs → lookupF p.1 fs = some p.2
  | [], _, p, hp => absurd hp (List.not_mem_nil _)
  | (k, v) :: fs, h, p, hp => by
      obtain ⟨hnone, _, hfs⟩ := wfF_head k v fs h
      rcases List.mem_cons.1 hp with he | ht
      · subst he; simp [lookupF]
      · by_cases he : k = p.1
        · subst he
          have := lookupF_isSome_of_mem fs p ht
          rw [hnone] at this
          simp at this
        · rw [lookupF, if_neg he]
          exact wfF_lookup_self fs hfs p ht

mutual

theorem mergeV_self (rk : String → Bool) (key : String) :
    (d : Json) → wfV d = true → arrFree d = true → mergeV rk key d d = d
  | .null, _, _ => rfl
  | .bool _, _, _ => rfl
  | .num _, _, _ => rfl
  | .str _, _, _ => rfl
  | .arr _, _, haf => by simp [arrFree] at haf
  | .obj fs, hwf, haf => by
      have hwfs : wfF fs = true := by simpa [wfV] using hwf
      have hafs : arrFreeF fs = true := by simpa [arrFree] using haf
      rw [mergeV_obj]
      unfold mergeF
      rw [mergedLeft_self rk fs fs (wfF_lookup_self fs hwfs)
            (fun p hp => ⟨wfF_mem fs hwfs p hp, arrFreeF_mem fs hafs p hp⟩)]
      have hfilter : fs.filter (fun p => (lookupF p.1 fs).isNone) = [] := by
        rw [List.filter_eq_nil_iff]
        intro p hp
        have := lookupF_isSome_of_mem fs p hp
        simp only [Option.isNone_iff_eq_none]
        intro hc
        rw [hc] at this
        simp at this
      rw [hfilter, List.append_nil]

theorem mergedLeft_self (rk : String → Bool) (gs : List (String × Json)) :
    (fs : List (String × Json)) →
      (∀ p : String × Json, p ∈ fs → lookupF p.1 gs = some p.2) →
      (∀ p : String × Json, p ∈ fs → wfV p.2 = true ∧ arrFree p.2 = true) →
      mergedLeft rk gs fs = fs
  | [], _, _ => rfl
  | (k, v) :: fs, hlk, hwa => by
      have h1 := hlk (k, v) (List.mem_cons_self _ _)
      have h2 := hwa (k, v) (List.mem_cons_self _ _)
      simp only [mergedLeft, h1]
      rw [mergeV_self rk k v h2.1 h2.2,
          mergedLeft_self rk gs fs (fun p hp => hlk p (List.mem_cons_of_mem _ hp))
            (fun p hp => hwa p (List.mem_cons_of_mem _ hp))]
end

/-- Keys of an object's field list, in order. -/
def keysF (fs : List (String × Json)) : List String := fs.map Prod.fst

theorem lookupF_eq_none_iff :
    ∀ (fs : List (String × Json)) (k : String), lookupF k fs = none ↔ k ∉ keysF fs
  | [], k => by simp [lookupF, keysF]
  | (l, v) :: fs, k => by
      by_cases h : l = k
      · subst h; simp [lookupF, keysF]
      · simp [lookupF, keysF, h, lookupF_eq_none_iff fs k, Ne.symm h]

theorem keys_mem_of_lookupF_some (fs : List (String × Json)) (k : String) (v : Json)
    (h : lookupF k fs = some v) : k ∈ keysF fs := by
  by_contra hc
  rw [← lookupF_eq_none_iff fs k] at hc
  rw [h] at hc
  cases hc

theorem wfF_nodup_keys : ∀ fs : List (String × Json), wfF fs = true → (keysF fs).Nodup
  | [], _ => by simp [keysF]
  | (k, v) :: fs, h => by
      obtain ⟨hnone, _, hfs⟩ := wfF_head k v fs h
      simp only [keysF, List.map_cons, List.nodup_cons]
      exact ⟨by simpa [keysF] using (lookupF_eq_none_iff fs k).1 hnone,
             wfF_nodup_keys fs hfs⟩

theorem insertF_perm (p : String × Json) :
    ∀ l : List (String × Json), List.Perm (insertF p l) (p :: l)
  | [] => List.Perm.refl _
  | q :: qs => by
      unfold insertF
      by_cases h : p.1 ≤ q.1
      · simp only [h, if_true]
        exact List.Perm.refl _
      · simp only [h, if_false]
        exact ((insertF_perm p qs).cons q).trans (List.Perm.swap p q qs)

theorem canonF_perm :
    ∀ fs : List (String × Json),
      List.Perm (canonF fs) (fs.map (fun p => (p.1, canonV p.2)))
  | [] => List.Perm.refl _
  | (k, v) :: fs => by
      simp only [canonF, List.map_cons]
      exact (insertF_perm _ _).trans ((canonF_perm fs).cons _)

theorem keysF_canonF_perm (fs : List (String × Json)) :
    List.Perm (keysF (canonF fs)) (keysF fs) := by
  have h := (canonF_perm fs).map Prod.fst
  simpa [keysF, List.map_map, Function.comp] using h

/-- Strict key-sortedness of a field list. -/
def sortedF (l : List (String × Json)) : Prop :=
  List.Pairwise (fun p q => p.1 < q.1) l

theorem insertF_sorted (p : String × Json) :
    ∀ l : List (String × Json), sortedF l → p.1 ∉ keysF l → sortedF (insertF p l)
  | [], _, _ => by simp [insertF, sortedF]
  | q :: qs, hs, hk => by
      rw [sortedF, List.pairwise_cons] at hs
      have hkq : p.1 ≠ q.1 := by simp [keysF] at hk; exact hk.1
      have hkqs : p.1 ∉ keysF qs := by simp [keysF] at hk ⊢; exact hk.2
      unfold insertF
      by_cases h : p.1 ≤ q.1
      · simp only [h, if_true]
        rw [sortedF, List.pairwise_cons]
        refine ⟨?_, List.pairwise_cons.2 hs⟩
        intro r hr
        rcases List.mem_cons.1 hr with he | ht
        · subst he; exact lt_of_le_of_ne h hkq
        · exact lt_of_le_of_lt (le_of_lt (lt_of_le_of_ne h hkq)) (hs.1 r ht)
      · simp only [h, if_false]
        rw [sortedF, List.pairwise_cons]
        constructor
        · intro r hr
          have hrm := (insertF_perm p qs).mem_iff.1 hr
          rcases List.mem_cons.1 hrm with he | ht
          · subst he; exact lt_of_not_le h
          · exact hs.1 r ht
        · exact insertF_sorted p qs hs.2 hkqs

theorem canonF_sorted :
    ∀ fs : List (String × Json), (keysF fs).Nodup → sortedF (canonF fs)
  | [], _ => List.Pairwise.nil
  | (k, v) :: fs, h => by
      simp only [keysF, List.map_cons, List.nodup_cons] at h
      refine insertF_sorted _ _ (canonF_sorted fs (by simpa [keysF] using h.2)) ?_
      intro hc
      have hc2 : k ∈ keysF fs := (keysF_canonF_perm fs).mem_iff.1 hc
      simp only [keysF] at hc2
      exact h.1 hc2

theorem lookupF_perm (k : String) {l1 l2 : List (String × Json)}
    (h : List.Perm l1 l2) : (keysF l1).Nodup → lookupF k l1 = lookupF k l2 := by
  induction h with
  | nil => intro; rfl
  | cons p hp ih =>
      intro hnd
      obtain ⟨a, b⟩ := p
      simp only [keysF, List.map_cons, List.nodup_cons] at hnd
      by_cases hak : a = k
      · simp [lookupF, hak]
      · simp only [lookupF, if_neg hak]
        exact ih (by simpa [keysF] using hnd.2)
  | swap x y l =>
      intro hnd
      obtain ⟨a, b⟩ := x
      obtain ⟨c, d⟩ := y
      simp only [keysF, List.map_cons, List.nodup_cons, List.mem_cons] at hnd
      have hac : c ≠ a := fun he => hnd.1 (Or.inl he)
      by_cases hck : c = k
      · subst hck
        simp [lookupF, Ne.symm hac]
      · by_cases hak : a = k
        · simp [lookupF, hak, hck]
        · simp [lookupF, hak, hck]
  | trans h1 h2 ih1 ih2 =>
      intro hnd
      refine (ih1 hnd).trans (ih2 ?_)
      have : List.Perm (keysF _) (keysF _) := h1.map Prod.fst
      exact this.nodup_iff.1 hnd

theorem lookupF_map_canon (k : String) :
    ∀ fs : List (String × Json),
      lookupF k (fs.map (fun p => (p.1, canonV p.2))) = (lookupF k fs).map canonV
  | [] => rfl
  | (l, v) :: fs => by
      by_cases h : l = k <;> simp [lookupF, h, lookupF_map_canon k fs]

theorem lookupF_canonF (k : String) (fs : List (String × Json))
    (h : (keysF fs).Nodup) :
    lookupF k (canonF fs) = (lookupF k fs).map canonV := by
  have hnd : (keysF (canonF fs)).Nodup := (keysF_canonF_perm fs).nodup_iff.2 h
  rw [lookupF_perm k (canonF_perm fs) hnd, lookupF_map_canon]

theorem sortedF_lookup_tail_none (p : String × Json) (t : List (String × Json))
    (hs : sortedF (p :: t)) : lookupF p.1 t = none := by
  rw [sortedF, List.pairwise_cons] at hs
  rw [lookupF_eq_none_iff]
  intro hc
  simp only [keysF, List.mem_map] at hc
  obtain ⟨r, hr, he⟩ := hc
  exact absurd (he ▸ hs.1 r hr) (lt_irrefl _)

theorem sortedF_ext :
    ∀ (l1 l2 : List (String × Json)), sortedF l1 → sortedF l2 →
      (∀ k, lookupF k l1 = lookupF k l2) → l1 = l2
  | [], [], _, _, _ => rfl
  | [], (q, w) :: t2, _, _, hl => by
      have := hl q
      simp [lookupF] at this
  | (p, v) :: t1, [], _, _, hl => by
      have := hl p
      simp [lookupF] at this
  | (p, v) :: t1, (q, w) :: t2, h1, h2, hl => by
      by_cases hqp : q = p
      · subst hqp
        have hv : v = w := by
          have := hl q
          simp [lookupF] at this
          exact this
        subst hv
        have ht : t1 = t2 := by
          refine sortedF_ext t1 t2 (List.pairwise_cons.1 h1).2 (List.pairwise_cons.1 h2).2
            (fun k => ?_)
          by_cases hk : q = k
          · subst hk
            rw [sortedF_lookup_tail_none (q, v) t1 h1,
                sortedF_lookup_tail_none (q, v) t2 h2]
          · have := hl k
            simpa [lookupF, hk] using this
        rw [ht]
      · exfalso
        have ha := hl p
        simp only [lookupF, if_pos rfl, if_neg hqp, if_true] at ha
        have hp2 : p ∈ keysF t2 := keys_mem_of_lookupF_some t2 p v ha.symm
        rw [sortedF, List.pairwise_cons] at h2
        simp only [keysF, List.mem_map] at hp2
        obtain ⟨r, hr, he⟩ := hp2
        have hqlt : q < p := he ▸ h2.1 r hr
        have hb := hl q
        simp only [lookupF] at hb
        rw [if_neg (fun he2 : p = q => hqp he2.symm)] at hb
        simp at hb
        have hq1 : q ∈ keysF t1 := keys_mem_of_lookupF_some t1 q w hb
        rw [sortedF, List.pairwise_cons] at h1
        simp only [keysF, List.mem_map] at hq1
        obtain ⟨r2, hr2, he2⟩ := hq1
        have hplt : p < q := he2 ▸ h1.1 r2 hr2
        exact absurd (hqlt.trans hplt) (lt_irrefl _)

theorem keysF_mergedLeft (rk : String → Bool) (gs : List (String × Json)) :
    ∀ fs : List (String × Json), keysF (mergedLeft rk gs fs) = keysF fs
  | [] => rfl
  | (k, v) :: fs => by
      have ih := keysF_mergedLeft rk gs fs
      simp only [keysF] at ih
      cases h : lookupF k gs <;> simp [mergedLeft, keysF, h, ih]

theorem nodup_keys_mergeF (rk : String → Bool) (fs gs : List (String × Json))
    (hf : (keysF fs).Nodup) (hg : (keysF gs).Nodup) :
    (keysF (mergeF rk fs gs)).Nodup := by
  unfold mergeF
  have h1 : keysF (mergedLeft rk gs fs ++ gs.filter (fun p => (lookupF p.1 fs).isNone))
      = keysF (mergedLeft rk gs fs) ++ keysF (gs.filter (fun p => (lookupF p.1 fs).isNone)) := by
    simp [keysF]
  rw [h1, keysF_mergedLeft]
  refine hf.append ?_ ?_
  · have hsub : (gs.filter (fun p => (lookupF p.1 fs).isNone)).Sublist gs :=
      List.filter_sublist _
    exact ((hsub.map Prod.fst).nodup hg)
  · intro a ha hb
    simp only [keysF, List.mem_map] at ha hb
    obtain ⟨p, hp, hpe⟩ := hb
    have hpf := List.mem_filter.1 hp
    have hnone : lookupF p.1 fs = none := by
      simpa [Option.isNone_iff_eq_none] using hpf.2
    rw [hpe] at hnone
    rw [lookupF_eq_none_iff] at hnone
    exact hnone (by simpa [keysF] using ha)

theorem cfF_lookup (gs : List (String × Json)) :
    ∀ fs : List (String × Json), cfF gs fs = true →
      ∀ (k : String) (v w : Json), (k, v) ∈ fs → lookupF k gs = some w →
        cfV v w = true
  | [], _, k, v, w, hm, _ => absurd hm (List.not_mem_nil _)
  | (k0, v0) :: fs, h, k, v, w, hm, hl => by
      rw [cfF] at h
      simp only [Bool.and_eq_true] at h
      rcases List.mem_cons.1 hm with he | ht
      · injection he with e1 e2
        subst e1; subst e2
        rw [hl] at h
        exact h.1
      · exact cfF_lookup gs fs h.2 k v w ht hl

theorem cfV_cases : ∀ a b : Json, cfV a b = true →
    a = b ∨ ∃ fs gs, a = .obj fs ∧ b = .obj gs ∧ cfF gs fs = true
  | .obj fs, .obj gs, h => Or.inr ⟨fs, gs, rfl, rfl, h⟩
  | .null, b, h => Or.inl ((beqV_iff _ _).1 (by
      cases b <;> simpa [cfV] using h))
  | .bool x, b, h => Or.inl ((beqV_iff _ _).1 (by
      cases b <;> simpa [cfV] using h))
  | .num x, b, h => Or.inl ((beqV_iff _ _).1 (by
      cases b <;> simpa [cfV] using h))
  | .str x, b, h => Or.inl ((beqV_iff _ _).1 (by
      cases b <;> simpa [cfV] using h))
  | .arr xs, b, h => Or.inl ((beqV_iff _ _).1 (by
      cases b <;> simpa [cfV] using h))
  | .obj fs, .null, h => Or.inl ((beqV_iff _ _).1 (by simpa [cfV] using h))
  | .obj fs, .bool _, h => Or.inl ((beqV_iff _ _).1 (by simpa [cfV] using h))
  | .obj fs, .num _, h => Or.inl ((beqV_iff _ _).1 (by simpa [cfV] using h))
  | .obj fs, .str _, h => Or.inl ((beqV_iff _ _).1 (by simpa [cfV] using h))
  | .obj fs, .arr _, h => Or.inl ((beqV_iff _ _).1 (by simpa [cfV] using h))

mutual

theorem mergeV_comm (rk : String → Bool) (key : String) :
    (a b : Json) → wfV a = true → wfV b = true → arrFree a = true →
      arrFree b = true → cfV a b = true →
      canonV (mergeV rk key a b) = canonV (mergeV rk key b a)
  | .obj fs, .obj gs, hwa, hwb, hfa, hfb, hcf => by
      rw [mergeV_obj, mergeV_obj]
      simp only [canonV]
      congr 1
      have hwfs : wfF fs = true := by simpa [wfV] using hwa
      have hwgs : wfF gs = true := by simpa [wfV] using hwb
      have hffs : arrFreeF fs = true := by simpa [arrFree] using hfa
      have hfgs : arrFreeF gs = true := by simpa [arrFree] using hfb
      have hcff : cfF gs fs = true := by simpa [cfV] using hcf
      have hnf := wfF_nodup_keys fs hwfs
      have hng := wfF_nodup_keys gs hwgs
      have hnm1 := nodup_keys_mergeF rk fs gs hnf hng
      have hnm2 := nodup_keys_mergeF rk gs fs hng hnf
      refine sortedF_ext _ _ (canonF_sorted _ hnm1) (canonF_sorted _ hnm2) (fun k => ?_)
      rw [lookupF_canonF k _ hnm1, lookupF_canonF k _ hnm2,
          lookupF_mergeF, lookupF_mergeF]
      cases hf : lookupF k fs with
      | none => cases hg : lookupF k gs <;> rfl
      | some v =>
          cases hg : lookupF k gs with
          | none => rfl
          | some w =>
              have hmv : (k, v) ∈ fs := mem_of_lookupF_some fs k v hf
              have hmw : (k, w) ∈ gs := mem_of_lookupF_some gs k w hg
              exact congrArg some (mergeV_comm_fields rk fs (k, v) hmv k w
                (wfF_mem fs hwfs (k, v) hmv) (wfF_mem gs hwgs (k, w) hmw)
                (arrFreeF_mem fs hffs (k, v) hmv) (arrFreeF_mem gs hfgs (k, w) hmw)
                (cfF_lookup gs fs hcff k v w hmv hg))
  | .null, b, _, _, _, _, hcf => by
      have hb : Json.null = b := (beqV_iff _ _).1 (by cases b <;> simpa [cfV] using hcf)
      subst hb
      rfl
  | .bool x, b, _, _, _, _, hcf => by
      have hb : Json.bool x = b := (beqV_iff _ _).1 (by cases b <;> simpa [cfV] using hcf)
      subst hb
      rfl
  | .num x, b, _, _, _, _, hcf => by
      have hb : Json.num x = b := (beqV_iff _ _).1 (by cases b <;> simpa [cfV] using hcf)
      subst hb
      rfl
  | .str x, b, _, _, _, _, hcf => by
      have hb : Json.str x = b := (beqV_iff _ _).1 (by cases b <;> simpa [cfV] using hcf)
      subst hb
      rfl
  | .arr xs, _, _, _, hfa, _, _ => by simp [arrFree] at hfa
  | .obj fs, .null, _, _, _, _, hcf => by
      exact Json.noConfusion ((beqV_iff _ _).1 (by simpa [cfV] using hcf))
  | .obj fs, .bool _, _, _, _, _, hcf => by
      exact Json.noConfusion ((beqV_iff _ _).1 (by simpa [cfV] using hcf))
  | .obj fs, .num _, _, _, _, _, hcf => by
      exact Json.noConfusion ((beqV_iff _ _).1 (by simpa [cfV] using hcf))
  | .obj fs, .str _, _, _, _, _, hcf => by
      exact Json.noConfusion ((beqV_iff _ _).1 (by simpa [cfV] using hcf))
  | .obj fs, .arr _, _, _, _, hfb, _ => by simp [arrFree] at hfb

theorem mergeV_comm_fields (rk : String → Bool) :
    (fs : List (String × Json)) → ∀ p : String × Json, p ∈ fs →
      ∀ (key2 : String) (w : Json), wfV p.2 = true → wfV w = true →
        arrFree p.2 = true → arrFree w = true → cfV p.2 w = true →
        canonV (mergeV rk key2 p.2 w) = canonV (mergeV rk key2 w p.2)
  | [], p, hp, _, _, _, _, _, _, _ => absurd hp (List.not_mem_nil _)
  | (k0, v0) :: fs, p, hp, key2, w, h1, h2, h3, h4, h5 => by
      rcases List.mem_cons.1 hp with he | ht
      · subst he
        exact mergeV_comm rk key2 v0 w h1 h2 h3 h4 h5
      · exact mergeV_comm_fields rk fs p ht key2 w h1 h2 h3 h4 h5

end

/-- C1 counterexample: the claimed invariance under duplication fails.  For
the body `d = {"a": [{"id":"x","n":1}, {"id":"x","n":2}]}`, `Put(k, d)`
twice stores different content than `Put(k, d)` once — whether the key
`"a"` is designated a reference list or not: without the designation the
array is concatenated with itself (`[r1,r2,r1,r2]`), with it the
identity-deduplication collapses the two distinct records sharing id `"x"`
to `[r1]`; neither equals the singly-stored `[r1,r2]`. -/
theorem c1_put_convergence_counterexample :
    (putSeq (fun _ => false) emptyStore
        [("Person", "p1", .obj [("a", .arr [.obj [("id", .str "x"), ("n", .num 1)],
                                            .obj [("id", .str "x"), ("n", .num 2)]])]),
         ("Person", "p1", .obj [("a", .arr [.obj [("id", .str "x"), ("n", .num 1)],
                                            .obj [("id", .str "x"), ("n", .num 2)]])])]
        ("Person", "p1")
      ≠ putSeq (fun _ => false) emptyStore
        [("Person", "p1", .obj [("a", .arr [.obj [("id", .str "x"), ("n", .num 1)],
                                            .obj [("id", .str "x"), ("n", .num 2)]])])]
        ("Person", "p1"))
    ∧ (putSeq (fun _ => true) emptyStore
        [("Person", "p1", .obj [("a", .arr [.obj [("id", .str "x"), ("n", .num 1)],
                                            .obj [("id", .str "x"), ("n", .num 2)]])]),
         ("Person", "p1", .obj [("a", .arr [.obj [("id", .str "x"), ("n", .num 1)],
                                            .obj [("id", .str "x"), ("n", .num 2)]])])]
        ("Person", "p1")
      ≠ putSeq (fun _ => true) emptyStore
        [("Person", "p1", .obj [("a", .arr [.obj [("id", .str "x"), ("n", .num 1)],
                                            .obj [("id", .str "x"), ("n", .num 2)]])])]
        ("Person", "p1")) := by
  constructor <;> decide

/-- C1 (amended): for bodies that contain no arrays (scalar and nested
object fields, with duplicate-free object keys, as Python dicts guarantee),
Put is idempotent — `Put(k,d); Put(k,d)` leaves exactly the store of
`Put(k,d)` — and Put calls for two such bodies sharing no conflicting
scalar fields commute: both orders store, at every key, documents equal up
to the canonical (key-sorted) form, i.e. equal as JSON objects.  Bodies
containing arrays are excluded: duplication changes both plain concatenated
arrays and reference lists holding distinct records with a shared id. -/
theorem c1_put_convergence_amended (rk : String → Bool) (kind ident : String)
    (d d1 d2 : Json)
    (hd : wfV d = true ∧ arrFree d = true)
    (h1 : wfV d1 = true ∧ arrFree d1 = true)
    (h2 : wfV d2 = true ∧ arrFree d2 = true)
    (hcf : cfV d1 d2 = true) :
    putSeq rk emptyStore [(kind, ident, d), (kind, ident, d)]
      = putSeq rk emptyStore [(kind, ident, d)]
    ∧ ∀ q, Option.map canonV
        (putSeq rk emptyStore [(kind, ident, d1), (kind, ident, d2)] q)
      = Option.map canonV
        (putSeq rk emptyStore [(kind, ident, d2), (kind, ident, d1)] q) := by
  constructor
  · funext q
    by_cases hq : q = (kind, ident)
    · subst hq
      simp [putSeq, put, emptyStore, mergeV_self rk "" d hd.1 hd.2]
    · simp [putSeq, put, emptyStore, hq]
  · intro q
    by_cases hq : q = (kind, ident)
    · subst hq
      simp [putSeq, put, emptyStore]
      exact mergeV_comm rk "" d1 d2 h1.1 h2.1 h1.2 h2.2 hcf
    · simp [putSeq, put, emptyStore, hq]

theorem c1_put_convergence_amended_witness :
    putSeq (fun _ => false) emptyStore
        [("Person", "p1", .obj [("a", .num 1)]),
         ("Person", "p1", .obj [("a", .num 1)])]
      = putSeq (fun _ => false) emptyStore [("Person", "p1", .obj [("a", .num 1)])]
    ∧ Option.map canonV
        (putSeq (fun _ => false) emptyStore
          [("Person", "p1", .obj [("a", .num 1)]),
           ("Person", "p1", .obj [("b", .num 2)])] ("Person", "p1"))
      = Option.map canonV
        (putSeq (fun _ => false) emptyStore
          [("Person", "p1", .obj [("b", .num 2)]),
           ("Person", "p1", .obj [("a", .num 1)])] ("Person", "p1")) :=
  ⟨(c1_put_convergence_amended (fun _ => false) "Person" "p1"
      (.obj [("a", .num 1)]) (.obj [("a", .num 1)]) (.obj [("b", .num 2)])
      ⟨by decide, by decide⟩ ⟨by decide, by decide⟩ ⟨by decide, by decide⟩
      (by decide)).1,
   (c1_put_convergence_amended (fun _ => false) "Person" "p1"
      (.obj [("a", .num 1)]) (.obj [("a", .num 1)]) (.obj [("b", .num 2)])
      ⟨by decide, by decide⟩ ⟨by decide, by decide⟩ ⟨by decide, by decide⟩
      (by decide)).2 ("Person", "p1")⟩
